import Mathlib

/-!
# Verification of the transactional key-value storage layer (`dbwrapper.h`)

Shallow embedding of the `CDBWrapper` / `CDBTransaction` /
`CDBTransactionIterator` core. Keys are serialized byte strings
(`CDataStream` contents), modelled as `List Nat`; values held in an
overlay's write-set are type-erased holders (`ValueHolderImpl<V>`),
modelled as a type tag together with the held value and its serialized
size. Parent stores and commit targets are template parameters in the
source and are kept abstract here (functions / small structures).
-/

/-- Serialized key bytes: the contents of a `CDataStream` key. -/
abbrev Key := List Nat

/-- `CDBTransaction::DataStreamCmp::less`: `std::lexicographical_compare`
over the raw bytes of the two streams. -/
def lexLess : Key → Key → Bool
  | _, [] => false
  | [], _ :: _ => true
  | a :: as, b :: bs => if a < b then true else if b < a then false else lexLess as bs

theorem lexLess_nil (a : Key) : lexLess a [] = false := by
  cases a <;> rfl

theorem lexLess_irrefl (a : Key) : lexLess a a = false := by
  induction a with
  | nil => rfl
  | cons x xs ih => simp [lexLess, ih]

theorem lexLess_asymm : ∀ {a b : Key}, lexLess a b = true → lexLess b a = false
  | a, [], h => by rw [lexLess_nil] at h; cases h
  | [], _ :: _, _ => by rfl
  | a :: as, b :: bs, h => by
    simp only [lexLess] at h ⊢
    rcases Nat.lt_trichotomy a b with hab | hab | hab
    · simp [hab, Nat.not_lt.mpr (Nat.le_of_lt hab)]
    · subst hab
      simp only [lt_irrefl, if_false] at h ⊢
      exact lexLess_asymm h
    · simp [hab, Nat.not_lt.mpr (Nat.le_of_lt hab)] at h

theorem lexLess_trans : ∀ {a b c : Key},
    lexLess a b = true → lexLess b c = true → lexLess a c = true
  | _, b, [], _, h2 => by rw [lexLess_nil] at h2; cases h2
  | a, [], _ :: _, h1, _ => by rw [lexLess_nil] at h1; cases h1
  | [], _ :: _, _ :: _, _, _ => by rfl
  | a :: as, b :: bs, c :: cs, h1, h2 => by
    simp only [lexLess] at h1 h2 ⊢
    rcases Nat.lt_trichotomy a b with hab | hab | hab
    · rcases Nat.lt_trichotomy b c with hbc | hbc | hbc
      · simp [Nat.lt_trans hab hbc]
      · subst hbc; simp [hab]
      · simp [hbc, Nat.not_lt.mpr (Nat.le_of_lt hbc)] at h2
    · subst hab
      rcases Nat.lt_trichotomy a c with hac | hac | hac
      · simp [hac]
      · subst hac
        simp only [lt_irrefl, if_false] at h1 h2 ⊢
        exact lexLess_trans h1 h2
      · simp [hac, Nat.not_lt.mpr (Nat.le_of_lt hac)] at h2
    · simp [hab, Nat.not_lt.mpr (Nat.le_of_lt hab)] at h1

theorem lexLess_total : ∀ {a b : Key},
    lexLess a b = false → lexLess b a = false → a = b
  | [], [], _, _ => rfl
  | [], _ :: _, h1, _ => by simp [lexLess] at h1
  | _ :: _, [], _, h2 => by simp [lexLess] at h2
  | a :: as, b :: bs, h1, h2 => by
    simp only [lexLess] at h1 h2
    rcases Nat.lt_trichotomy a b with hab | hab | hab
    · simp [hab] at h1
    · subst hab
      simp only [lt_irrefl, if_false] at h1 h2
      exact congrArg (a :: ·) (lexLess_total h1 h2)
    · simp [hab] at h2

theorem lexLess_of_ne {a b : Key} (h : a ≠ b) :
    lexLess a b = true ∨ lexLess b a = true := by
  by_contra hc
  push_neg at hc
  obtain ⟨h1, h2⟩ := hc
  exact h (lexLess_total (Bool.eq_false_iff.mpr h1) (Bool.eq_false_iff.mpr h2))

theorem ne_of_lexLess {a b : Key} (h : lexLess a b = true) : a ≠ b := by
  intro hab
  subst hab
  rw [lexLess_irrefl] at h
  cases h

/-- The result of a typed `Read` call: `fault` models the
`std::runtime_error` thrown on a value-type mismatch, `notFound` a
`false` return, `found v` a `true` return with the out-value set. -/
inductive ReadResult where
  | fault : ReadResult
  | notFound : ReadResult
  | found : Nat → ReadResult
deriving DecidableEq, Repr

/-- `CDBTransaction::ValueHolderImpl<V>`: a type-erased holder keeping
the concrete value type (`typeTag` stands for `V`), the held value, and
`memoryUsage` (the serialized size of the value computed by
`GetSerializeSize` at `Write` time). -/
structure ValueHolder where
  typeTag : Nat
  value : Nat
  memoryUsage : Nat
deriving DecidableEq, Repr

/-- `std::set::count` on the delete-set (`deletes.count(ssKey)` as a
boolean). -/
def containsKey : List Key → Key → Bool
  | [], _ => false
  | k' :: rest, k => if k' = k then true else containsKey rest k

/-- Lookup in the write-set map (`writes.find(ssKey)`). -/
def writesFind : List (Key × ValueHolder) → Key → Option ValueHolder
  | [], _ => none
  | (k', h) :: rest, k => if k' = k then some h else writesFind rest k

/-- Ordered-map insertion used by `writes.emplace` followed by the
overwrite of `it->second`: inserts at the sorted position, replacing an
existing entry with an equivalent key. -/
def insertWrite : List (Key × ValueHolder) → Key → ValueHolder → List (Key × ValueHolder)
  | [], k, h => [(k, h)]
  | (k', h') :: rest, k, h =>
    if lexLess k k' then (k, h) :: (k', h') :: rest
    else if lexLess k' k then (k', h') :: insertWrite rest k h
    else (k, h) :: rest

/-- `writes.erase(it)` after `writes.find(ssKey)`: removes the entry
with the given key (the first match). -/
def removeWrite : List (Key × ValueHolder) → Key → List (Key × ValueHolder)
  | [], _ => []
  | (k', h') :: rest, k => if k' = k then rest else (k', h') :: removeWrite rest k

/-- Ordered-set insertion used by `deletes.emplace(ssKey)`: inserts at
the sorted position unless an equivalent key is present. -/
def insertDelete : List Key → Key → List Key
  | [], k => [k]
  | k' :: rest, k =>
    if lexLess k k' then k :: k' :: rest
    else if lexLess k' k then k' :: insertDelete rest k
    else k' :: rest

/-- `deletes.erase(ssKey)`: removes the key if present. -/
def removeDelete : List Key → Key → List Key
  | [], _ => []
  | k' :: rest, k => if k' = k then rest else k' :: removeDelete rest k

/-- `CDBTransaction<Parent, CommitTarget>` state: the ordered write-set
map (`std::map<CDataStream, ValueHolderPtr, DataStreamCmp>`), the
ordered delete-set (`std::set<CDataStream, DataStreamCmp>`), and the
signed `memoryUsage` counter. -/
structure CDBTransaction where
  writes : List (Key × ValueHolder)
  deletes : List Key
  memoryUsage : Int
deriving DecidableEq, Repr

namespace CDBTransaction

/-- The freshly constructed transaction: empty sets, zero usage. -/
def init : CDBTransaction := ⟨[], [], 0⟩

/-- `CDBTransaction::Write(ssKey, v)`. `tag` stands for the value type
`V`, `v` for the value, `vsz` for `GetSerializeSize(v, CLIENT_VERSION)`. -/
def Write (tx : CDBTransaction) (k : Key) (tag v vsz : Nat) : CDBTransaction :=
  let mem1 := if containsKey tx.deletes k then tx.memoryUsage - k.length else tx.memoryUsage
  let deletes' := removeDelete tx.deletes k
  let mem2 := match writesFind tx.writes k with
    | some h => mem1 - (k.length + h.memoryUsage)
    | none => mem1
  { writes := insertWrite tx.writes k ⟨tag, v, vsz⟩
    deletes := deletes'
    memoryUsage := mem2 + k.length + vsz }

/-- `CDBTransaction::Read(ssKey, value)` with requested value type
`tag`; `parentRead` is the parent's `Read` (the `Parent` template
parameter is abstract). The `dynamic_cast` failure throws, modelled by
`ReadResult.fault`. -/
def Read (tx : CDBTransaction) (parentRead : Nat → Key → ReadResult)
    (tag : Nat) (k : Key) : ReadResult :=
  if containsKey tx.deletes k then .notFound
  else match writesFind tx.writes k with
    | some h => if h.typeTag = tag then .found h.value else .fault
    | none => parentRead tag k

/-- `CDBTransaction::Exists(ssKey)`; `parentExists` is the parent's
`Exists`. -/
def Exists (tx : CDBTransaction) (parentExists : Key → Bool) (k : Key) : Bool :=
  if containsKey tx.deletes k then false
  else if (writesFind tx.writes k).isSome then true
  else parentExists k

/-- `CDBTransaction::Erase(ssKey)`. -/
def Erase (tx : CDBTransaction) (k : Key) : CDBTransaction :=
  let mem1 := match writesFind tx.writes k with
    | some h => tx.memoryUsage - (k.length + h.memoryUsage)
    | none => tx.memoryUsage
  let writes' := removeWrite tx.writes k
  if containsKey tx.deletes k then ⟨writes', tx.deletes, mem1⟩
  else ⟨writes', insertDelete tx.deletes k, mem1 + k.length⟩

/-- `CDBTransaction::Clear()`. -/
def Clear (_tx : CDBTransaction) : CDBTransaction := ⟨[], [], 0⟩

/-- `CDBTransaction::IsClean()`. -/
def IsClean (tx : CDBTransaction) : Bool := tx.writes.isEmpty && tx.deletes.isEmpty

/-- `CDBTransaction::GetMemoryUsage()`: a negative counter is reported
as 0 (with a diagnostic log, not modelled); otherwise the counter is
cast to `size_t`. -/
def GetMemoryUsage (tx : CDBTransaction) : Nat :=
  if tx.memoryUsage < 0 then 0 else tx.memoryUsage.toNat

end CDBTransaction

/-- The `CommitTarget` template parameter of `CDBTransaction`, kept
abstract: a state type with an `Erase(ssKey)` and a typed
`Write(ssKey, value)` operation (the latter receives the moved-out
holder contents). -/
structure StoreModel (σ : Type) where
  erase : σ → Key → σ
  write : σ → Key → ValueHolder → σ

/-- The effect of `CDBTransaction::Commit()` on the commit target:
first `commitTarget.Erase(k)` for each delete-set entry in order, then
`p.second->Write(p.first, commitTarget)` for each write-set entry in
order. -/
def commitInto {σ : Type} (S : StoreModel σ) (tx : CDBTransaction) (target : σ) : σ :=
  let t1 := tx.deletes.foldl S.erase target
  tx.writes.foldl (fun s p => S.write s p.1 p.2) t1

/-- `CDBTransaction::Commit()`: drains both sets into the commit target
and then calls `Clear()`. Returns the new overlay state and the new
target state. -/
def CDBTransaction.Commit {σ : Type} (S : StoreModel σ) (tx : CDBTransaction)
    (target : σ) : CDBTransaction × σ :=
  (tx.Clear, commitInto S tx target)

/-- Generic association-list lookup for raw byte-keyed stores. -/
def assocFind {α : Type} : List (Key × α) → Key → Option α
  | [], _ => none
  | (k', v) :: rest, k => if k' = k then some v else assocFind rest k

/-- Modelled from the spec: `CDataStream::Xor` (its source, `streams.h`,
is not among the provided files). The obfuscation codec XORs the value
bytes with the keystream repeated/truncated to length; an empty
keystream leaves the data unchanged. -/
def xorBytes (data key : List Nat) : List Nat :=
  if key = [] then data
  else data.mapIdx (fun i b => b ^^^ key.getD (i % key.length) 0)

/-- `CDBWrapper` state: the underlying leveldb contents (raw key bytes
to raw stored value bytes) and the obfuscation key. -/
structure CDBWrapper where
  store : List (Key × List Nat)
  obfuscate_key : List Nat

namespace CDBWrapper

/-- `CDBWrapper::ReadImpl(key)`: the engine `Get`, returning the raw
stored bytes or nothing when absent. -/
def ReadImpl (w : CDBWrapper) (k : Key) : Option (List Nat) :=
  assocFind w.store k

/-- `CDBWrapper::ExistsImpl(key)`. -/
def ExistsImpl (w : CDBWrapper) (k : Key) : Bool :=
  (assocFind w.store k).isSome

/-- `CDBWrapper::Read(key, value)` for value type `tag`: on a hit the
stored bytes are de-obfuscated and deserialized (`ssValue >> value`);
a deserialization exception is caught and turned into `false`.
`decode tag bytes = none` models the exception; deserialization itself
(`Unserialize`) lives outside this header and is kept abstract. -/
def Read (w : CDBWrapper) (decode : Nat → List Nat → Option Nat)
    (tag : Nat) (k : Key) : ReadResult :=
  match w.ReadImpl k with
  | none => .notFound
  | some bytes =>
    match decode tag (xorBytes bytes w.obfuscate_key) with
    | none => .notFound
    | some v => .found v

end CDBWrapper

/-- A key is skipped by the parent leg when it is shadowed by the
overlay: `transaction.deletes.count(parentKey) ||
transaction.writes.count(parentKey)`. -/
def shadowed (tx : CDBTransaction) (k : Key) : Bool :=
  containsKey tx.deletes k || (writesFind tx.writes k).isSome

/-- `CDBTransactionIterator` position: the write-set iterator (an index
into the ordered `writes` list), the parent iterator (an index into the
parent's key sequence), the cached `parentKey` stream, and the
`curIsParent` flag. -/
structure CDBTransactionIterator where
  txIdx : Nat
  pIdx : Nat
  parentKey : Key
  curIsParent : Bool
deriving DecidableEq, Repr

namespace CDBTransactionIterator

/-- `CDBTransactionIterator::SkipDeletedAndOverwritten()`: advance the
parent iterator past every key present in the delete-set or the
write-set, refreshing `parentKey` at each examined position. Returns
the new parent index and cached key. -/
def skipDO (tx : CDBTransaction) (parent : List Key) (pIdx : Nat) (pk : Key) :
    Nat × Key :=
  if h : pIdx < parent.length then
    let k := parent.get ⟨pIdx, h⟩
    if shadowed tx k then skipDO tx parent (pIdx + 1) k
    else (pIdx, k)
  else (pIdx, pk)
termination_by parent.length - pIdx

/-- `CDBTransactionIterator::DecideCur()`: pick the leg with the
smaller current key; with both legs valid, the transaction leg is
current exactly when its key is strictly `DataStreamCmp::less` than the
parent's. When neither leg is valid the flag is left unchanged. -/
def decideCur (tx : CDBTransaction) (parent : List Key) (txIdx pIdx : Nat)
    (pk : Key) (cur : Bool) : Bool :=
  if txIdx < tx.writes.length ∧ ¬ pIdx < parent.length then false
  else if ¬ txIdx < tx.writes.length ∧ pIdx < parent.length then true
  else if h : txIdx < tx.writes.length ∧ pIdx < parent.length then
    if lexLess (tx.writes.get ⟨txIdx, h.1⟩).1 pk then false else true
  else cur

/-- `CDBTransactionIterator::Valid()`. -/
def Valid (tx : CDBTransaction) (parent : List Key) (st : CDBTransactionIterator) :
    Bool :=
  decide (st.txIdx < tx.writes.length) || decide (st.pIdx < parent.length)

/-- `CDBTransactionIterator::SeekToFirst()` (the constructor leaves
`parentKey` an empty stream and `curIsParent` false). -/
def seekToFirst (tx : CDBTransaction) (parent : List Key) : CDBTransactionIterator :=
  let s := skipDO tx parent 0 []
  { txIdx := 0, pIdx := s.1, parentKey := s.2,
    curIsParent := decideCur tx parent 0 s.1 s.2 false }

/-- `CDBTransactionIterator::Next()`: no-op when both legs are
exhausted; otherwise advance the current leg (the parent leg with the
shadow-skip applied) and recompute the current leg. -/
def next (tx : CDBTransaction) (parent : List Key) (st : CDBTransactionIterator) :
    CDBTransactionIterator :=
  if ¬ st.txIdx < tx.writes.length ∧ ¬ st.pIdx < parent.length then st
  else if st.curIsParent then
    let s := skipDO tx parent (st.pIdx + 1) st.parentKey
    { txIdx := st.txIdx, pIdx := s.1, parentKey := s.2,
      curIsParent := decideCur tx parent st.txIdx s.1 s.2 st.curIsParent }
  else
    { txIdx := st.txIdx + 1, pIdx := st.pIdx, parentKey := st.parentKey,
      curIsParent := decideCur tx parent (st.txIdx + 1) st.pIdx st.parentKey
        st.curIsParent }

/-- Untyped `CDBTransactionIterator::GetKey()`: an empty stream when
invalid, else the current leg's key stream. -/
def getKeyStream (tx : CDBTransaction) (parent : List Key)
    (st : CDBTransactionIterator) : Key :=
  if Valid tx parent st = false then []
  else if st.curIsParent then st.parentKey
  else (tx.writes.getD st.txIdx ([], ⟨0, 0, 0⟩)).1

/-- Typed `CDBTransactionIterator::GetKey(key)`: `false` when invalid,
else deserialize the current key stream (`decK` abstracts `ssKey >> key`
with its caught exception). -/
def getKeyTyped (tx : CDBTransaction) (parent : List Key)
    (decK : Key → Option Nat) (st : CDBTransactionIterator) : Option Nat :=
  if Valid tx parent st = false then none
  else if st.curIsParent then decK st.parentKey
  else decK (tx.writes.getD st.txIdx ([], ⟨0, 0, 0⟩)).1

/-- `CDBTransactionIterator::GetKeySize()`: 0 when invalid, else the
parent iterator's key size or `transactionIt->first.vKey.size()`. -/
def getKeySize (tx : CDBTransaction) (parent : List Key)
    (st : CDBTransactionIterator) : Nat :=
  if Valid tx parent st = false then 0
  else if st.curIsParent then (parent.getD st.pIdx []).length
  else (tx.writes.getD st.txIdx ([], ⟨0, 0, 0⟩)).1.length

/-- `CDBTransactionIterator::GetValue(value)`: `false` when invalid,
else re-read the current key through the overlay's `Read`. -/
def getValue (tx : CDBTransaction) (parent : List Key)
    (parentRead : Nat → Key → ReadResult) (tag : Nat)
    (st : CDBTransactionIterator) : ReadResult :=
  if Valid tx parent st = false then .notFound
  else if st.curIsParent then tx.Read parentRead tag st.parentKey
  else tx.Read parentRead tag (tx.writes.getD st.txIdx ([], ⟨0, 0, 0⟩)).1

/-- The key sequence of a full traversal: repeatedly emit the current
key and advance while the iterator is valid. -/
def traverseKeys (tx : CDBTransaction) (parent : List Key) :
    Nat → CDBTransactionIterator → List Key
  | 0, _ => []
  | fuel + 1, st =>
    if Valid tx parent st then
      getKeyStream tx parent st :: traverseKeys tx parent fuel (next tx parent st)
    else []

end CDBTransactionIterator

/-- Two-way sorted merge by `DataStreamCmp::less`, the selection rule
`DecideCur` implements: the left (transaction) list wins exactly when
its head is strictly smaller. -/
def mergeKeys : List Key → List Key → List Key
  | [], ys => ys
  | xs, [] => xs
  | x :: xs, y :: ys =>
    if lexLess x y then x :: mergeKeys xs (y :: ys) else y :: mergeKeys (x :: xs) ys

/-- Strict ascending order under `DataStreamCmp::less`: the ordering
invariant of `std::map`/`std::set` key sequences. -/
def ascKeys : List Key → Bool
  | [] => true
  | [_] => true
  | a :: b :: rest => lexLess a b && ascKeys (b :: rest)

/-- The write-set's key sequence. -/
def writeKeys (w : List (Key × ValueHolder)) : List Key := w.map Prod.fst

/-- Memory attributed to the write-set: serialized key size plus held
value size, summed over all entries. -/
def writesSize : List (Key × ValueHolder) → Nat
  | [] => 0
  | (k, h) :: rest => k.length + h.memoryUsage + writesSize rest

/-- Memory attributed to the delete-set: serialized key sizes. -/
def deletesSize : List Key → Nat
  | [] => 0
  | k :: rest => k.length + deletesSize rest

/-- The analytically computed memory usage of an overlay (spec §3). -/
def expectedMem (tx : CDBTransaction) : Nat :=
  writesSize tx.writes + deletesSize tx.deletes

theorem ascKeys_tail : ∀ {a : Key} {l : List Key},
    ascKeys (a :: l) = true → ascKeys l = true
  | _, [], _ => rfl
  | _, _ :: _, h => by
    simp only [ascKeys, Bool.and_eq_true] at h
    exact h.2

theorem ascKeys_iff_pairwise : ∀ {l : List Key},
    ascKeys l = true ↔ List.Pairwise (fun a b => lexLess a b = true) l
  | [] => by simp [ascKeys]
  | [a] => by simp [ascKeys]
  | a :: b :: rest => by
    rw [List.pairwise_cons]
    constructor
    · intro h
      have hab : lexLess a b = true := by
        simp only [ascKeys, Bool.and_eq_true] at h
        exact h.1
      have htail : ascKeys (b :: rest) = true := ascKeys_tail h
      have hp := ascKeys_iff_pairwise.mp htail
      refine ⟨?_, hp⟩
      intro z hz
      rcases List.mem_cons.mp hz with rfl | hz
      · exact hab
      · rcases List.pairwise_cons.mp hp with ⟨hb, _⟩
        exact lexLess_trans hab (hb z hz)
    · rintro ⟨hhead, hp⟩
      have : ascKeys (b :: rest) = true := ascKeys_iff_pairwise.mpr hp
      simp only [ascKeys, Bool.and_eq_true]
      exact ⟨hhead b (List.mem_cons_self b rest), this⟩

theorem nodup_of_ascKeys {l : List Key} (h : ascKeys l = true) : l.Nodup := by
  have hp := ascKeys_iff_pairwise.mp h
  exact hp.imp (fun hab => ne_of_lexLess hab)

theorem containsKey_iff_mem : ∀ {l : List Key} {k : Key},
    containsKey l k = true ↔ k ∈ l
  | [], k => by simp [containsKey]
  | a :: rest, k => by
    simp only [containsKey, List.mem_cons]
    by_cases hak : a = k
    · simp [hak]
    · simp only [if_neg hak]
      rw [containsKey_iff_mem]
      constructor
      · exact Or.inr
      · rintro (rfl | hm)
        · exact absurd rfl hak
        · exact hm

theorem writesFind_isSome_iff_mem : ∀ {w : List (Key × ValueHolder)} {k : Key},
    (writesFind w k).isSome = true ↔ k ∈ writeKeys w
  | [], k => by simp [writesFind, writeKeys]
  | (a, h) :: rest, k => by
    simp only [writesFind, writeKeys, List.map_cons, List.mem_cons]
    by_cases hak : a = k
    · simp [hak]
    · simp only [if_neg hak]
      rw [writesFind_isSome_iff_mem]
      unfold writeKeys
      constructor
      · exact Or.inr
      · rintro (rfl | hm)
        · exact absurd rfl hak
        · exact hm

theorem writesFind_eq_none_iff : ∀ {w : List (Key × ValueHolder)} {k : Key},
    writesFind w k = none ↔ k ∉ writeKeys w := by
  intro w k
  rw [← writesFind_isSome_iff_mem]
  cases writesFind w k <;> simp

theorem writesFind_insertWrite_self :
    ∀ (w : List (Key × ValueHolder)) (k : Key) (h : ValueHolder),
    writesFind (insertWrite w k h) k = some h
  | [], k, h => by simp [insertWrite, writesFind]
  | (k', h') :: rest, k, h => by
    simp only [insertWrite]
    by_cases h1 : lexLess k k' = true
    · rw [if_pos h1]
      simp [writesFind]
    · rw [if_neg h1]
      by_cases h2 : lexLess k' k = true
      · rw [if_pos h2]
        have hne : k' ≠ k := ne_of_lexLess h2
        simp only [writesFind, if_neg hne]
        exact writesFind_insertWrite_self rest k h
      · rw [if_neg h2]
        simp [writesFind]

theorem writesFind_insertWrite_ne :
    ∀ (w : List (Key × ValueHolder)) (k : Key) (h : ValueHolder) (k'' : Key),
    k'' ≠ k → writesFind (insertWrite w k h) k'' = writesFind w k''
  | [], k, h, k'', hne => by
    simp only [insertWrite, writesFind, if_neg (Ne.symm hne)]
  | (k', h') :: rest, k, h, k'', hne => by
    simp only [insertWrite]
    by_cases h1 : lexLess k k' = true
    · rw [if_pos h1]
      simp only [writesFind, if_neg (Ne.symm hne)]
    · rw [if_neg h1]
      by_cases h2 : lexLess k' k = true
      · rw [if_pos h2]
        simp only [writesFind]
        by_cases h3 : k' = k''
        · rw [if_pos h3, if_pos h3]
        · rw [if_neg h3, if_neg h3]
          exact writesFind_insertWrite_ne rest k h k'' hne
      · rw [if_neg h2]
        have hk : k' = k := lexLess_total (by simpa using h2) (by simpa using h1)
        subst hk
        simp only [writesFind, if_neg (Ne.symm hne)]

theorem removeWrite_of_find_none :
    ∀ {w : List (Key × ValueHolder)} {k : Key},
    writesFind w k = none → removeWrite w k = w
  | [], k, _ => rfl
  | (k', h') :: rest, k, hf => by
    simp only [writesFind] at hf
    by_cases h1 : k' = k
    · simp [h1] at hf
    · simp only [if_neg h1] at hf
      simp [removeWrite, h1, removeWrite_of_find_none hf]

theorem writesFind_removeWrite_ne :
    ∀ (w : List (Key × ValueHolder)) (k k'' : Key), k'' ≠ k →
    writesFind (removeWrite w k) k'' = writesFind w k''
  | [], _, _, _ => rfl
  | (k', h') :: rest, k, k'', hne => by
    simp only [removeWrite]
    by_cases h1 : k' = k
    · subst h1
      rw [if_pos rfl]
      simp only [writesFind, if_neg (Ne.symm hne)]
    · rw [if_neg h1]
      simp only [writesFind]
      by_cases h3 : k' = k''
      · rw [if_pos h3, if_pos h3]
      · rw [if_neg h3, if_neg h3]
        exact writesFind_removeWrite_ne rest k k'' hne

theorem keys_removeWrite : ∀ (w : List (Key × ValueHolder)) (k : Key),
    writeKeys (removeWrite w k) = removeDelete (writeKeys w) k
  | [], _ => rfl
  | (k', h') :: rest, k => by
    simp only [removeWrite, writeKeys, List.map_cons, removeDelete]
    by_cases h1 : k' = k
    · simp [h1, writeKeys]
    · simpa [h1, writeKeys] using keys_removeWrite rest k

theorem keys_insertWrite : ∀ (w : List (Key × ValueHolder)) (k : Key) (h : ValueHolder),
    writeKeys (insertWrite w k h) = insertDelete (writeKeys w) k
  | [], _, _ => rfl
  | (k', h') :: rest, k, h => by
    simp only [insertWrite, writeKeys, List.map_cons, insertDelete]
    by_cases h1 : lexLess k k' = true
    · rw [if_pos h1, if_pos h1]
      simp [writeKeys]
    · rw [if_neg h1, if_neg h1]
      by_cases h2 : lexLess k' k = true
      · rw [if_pos h2, if_pos h2]
        simpa [writeKeys] using keys_insertWrite rest k h
      · rw [if_neg h2, if_neg h2]
        have hk : k' = k := lexLess_total (by simpa using h2) (by simpa using h1)
        simp [writeKeys, hk]

theorem mem_insertDelete : ∀ {l : List Key} {k z : Key},
    z ∈ insertDelete l k ↔ z ∈ l ∨ z = k
  | [], k, z => by simp [insertDelete]
  | k' :: rest, k, z => by
    simp only [insertDelete]
    by_cases h1 : lexLess k k' = true
    · rw [if_pos h1]
      simp only [List.mem_cons]
      tauto
    · rw [if_neg h1]
      by_cases h2 : lexLess k' k = true
      · rw [if_pos h2]
        simp only [List.mem_cons, mem_insertDelete (l := rest)]
        tauto
      · rw [if_neg h2]
        have hk : k' = k := lexLess_total (by simpa using h2) (by simpa using h1)
        subst hk
        simp only [List.mem_cons]
        tauto

theorem removeDelete_sublist : ∀ (l : List Key) (k : Key),
    (removeDelete l k).Sublist l
  | [], _ => List.Sublist.refl _
  | k' :: rest, k => by
    simp only [removeDelete]
    by_cases h1 : k' = k
    · simp only [if_pos h1]
      exact List.sublist_cons_self k' rest
    · simp only [if_neg h1]
      exact List.Sublist.cons₂ k' (removeDelete_sublist rest k)

theorem pairwise_insertDelete {l : List Key} {k : Key}
    (h : List.Pairwise (fun a b => lexLess a b = true) l) :
    List.Pairwise (fun a b => lexLess a b = true) (insertDelete l k) := by
  induction l with
  | nil => simp [insertDelete]
  | cons k' rest ih =>
    rcases List.pairwise_cons.mp h with ⟨hhead, htail⟩
    simp only [insertDelete]
    by_cases h1 : lexLess k k' = true
    · rw [if_pos h1]
      refine List.pairwise_cons.mpr ⟨?_, h⟩
      intro z hz
      rcases List.mem_cons.mp hz with rfl | hz
      · exact h1
      · exact lexLess_trans h1 (hhead z hz)
    · rw [if_neg h1]
      by_cases h2 : lexLess k' k = true
      · rw [if_pos h2]
        refine List.pairwise_cons.mpr ⟨?_, ih htail⟩
        intro z hz
        rcases mem_insertDelete.mp hz with hz | rfl
        · exact hhead z hz
        · exact h2
      · rw [if_neg h2]
        exact h

theorem pairwise_removeDelete {l : List Key} {k : Key}
    (h : List.Pairwise (fun a b => lexLess a b = true) l) :
    List.Pairwise (fun a b => lexLess a b = true) (removeDelete l k) :=
  List.Pairwise.sublist (removeDelete_sublist l k) h

theorem containsKey_insertDelete_self (l : List Key) (k : Key) :
    containsKey (insertDelete l k) k = true :=
  containsKey_iff_mem.mpr (mem_insertDelete.mpr (Or.inr rfl))

theorem containsKey_removeDelete_ne :
    ∀ (l : List Key) (k k'' : Key), k'' ≠ k →
    containsKey (removeDelete l k) k'' = containsKey l k''
  | [], _, _, _ => rfl
  | k' :: rest, k, k'', hne => by
    simp only [removeDelete]
    by_cases h1 : k' = k
    · subst h1
      rw [if_pos rfl]
      simp only [containsKey, if_neg (Ne.symm hne)]
    · rw [if_neg h1]
      simp only [containsKey]
      by_cases h3 : k' = k''
      · rw [if_pos h3, if_pos h3]
      · rw [if_neg h3, if_neg h3]
        exact containsKey_removeDelete_ne rest k k'' hne

theorem removeDelete_of_not_contains :
    ∀ {l : List Key} {k : Key}, containsKey l k = false → removeDelete l k = l
  | [], _, _ => rfl
  | k' :: rest, k, hc => by
    simp only [containsKey] at hc
    by_cases h1 : k' = k
    · simp [h1] at hc
    · simp only [if_neg h1] at hc
      simp [removeDelete, h1, removeDelete_of_not_contains hc]

theorem containsKey_removeDelete_self {l : List Key} {k : Key}
    (h : List.Pairwise (fun a b => lexLess a b = true) l) :
    containsKey (removeDelete l k) k = false := by
  induction l with
  | nil => rfl
  | cons k' rest ih =>
    rcases List.pairwise_cons.mp h with ⟨hhead, htail⟩
    simp only [removeDelete]
    by_cases h1 : k' = k
    · subst h1
      simp only [if_pos rfl]
      rw [Bool.eq_false_iff]
      intro hc
      have hm := containsKey_iff_mem.mp hc
      exact absurd (lexLess_irrefl k') (by simp [hhead k' hm])
    · simp only [if_neg h1, containsKey, if_neg h1]
      exact ih htail

theorem writesFind_removeWrite_self {w : List (Key × ValueHolder)} {k : Key}
    (h : List.Pairwise (fun a b => lexLess a b = true) (writeKeys w)) :
    writesFind (removeWrite w k) k = none := by
  rw [writesFind_eq_none_iff, keys_removeWrite]
  intro hm
  have := containsKey_removeDelete_self (l := writeKeys w) (k := k) h
  rw [containsKey_iff_mem.symm] at hm
  simp [hm] at this


theorem deletesSize_insertDelete :
    ∀ (l : List Key) (k : Key), containsKey l k = false →
    deletesSize (insertDelete l k) = deletesSize l + k.length
  | [], k, _ => by simp [insertDelete, deletesSize]
  | k' :: rest, k, hc => by
    simp only [containsKey] at hc
    by_cases h0 : k' = k
    · simp [h0] at hc
    · rw [if_neg h0] at hc
      simp only [insertDelete]
      by_cases h1 : lexLess k k' = true
      · rw [if_pos h1]
        simp only [deletesSize]
        omega
      · rw [if_neg h1]
        by_cases h2 : lexLess k' k = true
        · rw [if_pos h2]
          simp only [deletesSize]
          rw [deletesSize_insertDelete rest k hc]
          omega
        · exact absurd (lexLess_total (by simpa using h2) (by simpa using h1)) h0

theorem deletesSize_removeDelete :
    ∀ (l : List Key) (k : Key), containsKey l k = true →
    deletesSize (removeDelete l k) + k.length = deletesSize l
  | [], k, hc => by simp [containsKey] at hc
  | k' :: rest, k, hc => by
    simp only [containsKey] at hc
    simp only [removeDelete]
    by_cases h0 : k' = k
    · subst h0
      rw [if_pos rfl]
      simp only [deletesSize]
      omega
    · rw [if_neg h0]
      rw [if_neg h0] at hc
      simp only [deletesSize]
      rw [← deletesSize_removeDelete rest k hc]
      omega

theorem writesSize_removeWrite :
    ∀ (w : List (Key × ValueHolder)) (k : Key) (h0 : ValueHolder),
    writesFind w k = some h0 →
    writesSize (removeWrite w k) + k.length + h0.memoryUsage = writesSize w
  | [], k, h0, hf => by simp [writesFind] at hf
  | (k', h') :: rest, k, h0, hf => by
    simp only [writesFind] at hf
    simp only [removeWrite]
    by_cases h1 : k' = k
    · subst h1
      rw [if_pos rfl]
      rw [if_pos rfl] at hf
      obtain rfl : h' = h0 := by injection hf
      simp only [writesSize]
      omega
    · rw [if_neg h1]
      rw [if_neg h1] at hf
      simp only [writesSize]
      rw [← writesSize_removeWrite rest k h0 hf]
      omega

theorem writesSize_insertWrite_none :
    ∀ (w : List (Key × ValueHolder)) (k : Key) (h : ValueHolder),
    writesFind w k = none →
    writesSize (insertWrite w k h) = writesSize w + k.length + h.memoryUsage
  | [], k, h, _ => by simp [insertWrite, writesSize]
  | (k', h') :: rest, k, h, hf => by
    simp only [writesFind] at hf
    by_cases h0 : k' = k
    · simp [h0] at hf
    · rw [if_neg h0] at hf
      simp only [insertWrite]
      by_cases h1 : lexLess k k' = true
      · rw [if_pos h1]
        simp only [writesSize]
        omega
      · rw [if_neg h1]
        by_cases h2 : lexLess k' k = true
        · rw [if_pos h2]
          simp only [writesSize]
          rw [writesSize_insertWrite_none rest k h hf]
          omega
        · exact absurd (lexLess_total (by simpa using h2) (by simpa using h1)) h0

theorem writesSize_insertWrite_some :
    ∀ (w : List (Key × ValueHolder)) (k : Key) (h h0 : ValueHolder),
    List.Pairwise (fun a b => lexLess a b = true) (writeKeys w) →
    writesFind w k = some h0 →
    writesSize (insertWrite w k h) + h0.memoryUsage = writesSize w + h.memoryUsage
  | [], k, h, h0, _, hf => by simp [writesFind] at hf
  | (k', h') :: rest, k, h, h0, hs, hf => by
    simp only [writesFind] at hf
    rw [show writeKeys ((k', h') :: rest) = k' :: writeKeys rest from rfl] at hs
    rcases List.pairwise_cons.mp hs with ⟨hhead, htail⟩
    simp only [insertWrite]
    by_cases h1 : lexLess k k' = true
    · exfalso
      by_cases h0' : k' = k
      · subst h0'
        simp [lexLess_irrefl] at h1
      · rw [if_neg h0'] at hf
        have hk : k ∈ writeKeys rest := writesFind_isSome_iff_mem.mp (by simp [hf])
        have := hhead k hk
        rw [lexLess_asymm this] at h1
        cases h1
    · rw [if_neg h1]
      by_cases h2 : lexLess k' k = true
      · rw [if_pos h2]
        rw [if_neg (ne_of_lexLess h2)] at hf
        simp only [writesSize]
        have := writesSize_insertWrite_some rest k h h0 htail hf
        omega
      · have hk : k' = k := lexLess_total (by simpa using h2) (by simpa using h1)
        subst hk
        rw [if_pos rfl] at hf
        obtain rfl : h' = h0 := by injection hf
        rw [if_neg h2]
        simp only [writesSize]
        omega

/-- The std::map/std::set well-formedness of an overlay state, together
with the two spec invariants (§3): write-set and delete-set are
disjoint, and `memoryUsage` equals the analytically computed sum. -/
def WF (tx : CDBTransaction) : Prop :=
  List.Pairwise (fun a b => lexLess a b = true) (writeKeys tx.writes) ∧
  List.Pairwise (fun a b => lexLess a b = true) tx.deletes ∧
  (∀ k ∈ tx.deletes, writesFind tx.writes k = none) ∧
  tx.memoryUsage = (expectedMem tx : Int)

theorem wf_init : WF CDBTransaction.init := by
  refine ⟨List.Pairwise.nil, List.Pairwise.nil, ?_, rfl⟩
  intro k hk
  simp [CDBTransaction.init] at hk

theorem Write_writes (tx : CDBTransaction) (k : Key) (tag v vsz : Nat) :
    (tx.Write k tag v vsz).writes = insertWrite tx.writes k ⟨tag, v, vsz⟩ := rfl

theorem Write_deletes (tx : CDBTransaction) (k : Key) (tag v vsz : Nat) :
    (tx.Write k tag v vsz).deletes = removeDelete tx.deletes k := rfl

theorem Write_memoryUsage (tx : CDBTransaction) (k : Key) (tag v vsz : Nat) :
    (tx.Write k tag v vsz).memoryUsage =
      (match writesFind tx.writes k with
        | some h =>
          (if containsKey tx.deletes k then tx.memoryUsage - k.length
            else tx.memoryUsage) - (k.length + h.memoryUsage)
        | none =>
          (if containsKey tx.deletes k then tx.memoryUsage - k.length
            else tx.memoryUsage)) + k.length + vsz := rfl

theorem wf_Write {tx : CDBTransaction} (hwf : WF tx) (k : Key) (tag v vsz : Nat) :
    WF (tx.Write k tag v vsz) := by
  obtain ⟨hw, hd, hdisj, hm⟩ := hwf
  have hm' : tx.memoryUsage = ((writesSize tx.writes + deletesSize tx.deletes : Nat) : Int) := hm
  refine ⟨?_, ?_, ?_, ?_⟩
  · rw [Write_writes, keys_insertWrite]
    exact pairwise_insertDelete hw
  · rw [Write_deletes]
    exact pairwise_removeDelete hd
  · intro k' hk'
    rw [Write_deletes] at hk'
    rw [Write_writes]
    by_cases hkk : k' = k
    · subst hkk
      exfalso
      have hz := containsKey_removeDelete_self (l := tx.deletes) (k := k') hd
      rw [← containsKey_iff_mem] at hk'
      rw [hz] at hk'
      cases hk'
    · rw [writesFind_insertWrite_ne _ _ _ _ hkk]
      exact hdisj k' ((removeDelete_sublist _ _).subset hk')
  · rw [Write_memoryUsage,
      show expectedMem (tx.Write k tag v vsz) =
        writesSize (insertWrite tx.writes k ⟨tag, v, vsz⟩) +
          deletesSize (removeDelete tx.deletes k) from rfl]
    by_cases hck : containsKey tx.deletes k = true
    · have hkd : k ∈ tx.deletes := containsKey_iff_mem.mp hck
      have hfn : writesFind tx.writes k = none := hdisj k hkd
      simp only [hfn, if_pos hck]
      have e1 : writesSize (insertWrite tx.writes k ⟨tag, v, vsz⟩) =
          writesSize tx.writes + k.length + vsz := by
        simpa using writesSize_insertWrite_none tx.writes k ⟨tag, v, vsz⟩ hfn
      have e2 : deletesSize (removeDelete tx.deletes k) + k.length =
          deletesSize tx.deletes := deletesSize_removeDelete _ _ hck
      rw [hm', e1]
      push_cast
      show (writesSize tx.writes : Int) + (deletesSize tx.deletes : Int) - (List.length k : Int) +
          (List.length k : Int) + (vsz : Int) =
        (writesSize tx.writes : Int) + (List.length k : Int) + (vsz : Int) +
          (deletesSize (removeDelete tx.deletes k) : Int)
      omega
    · have hcf : containsKey tx.deletes k = false := by simpa using hck
      rw [removeDelete_of_not_contains hcf]
      simp only [if_neg hck]
      rcases hfind : writesFind tx.writes k with - | h0
      · simp only [hfind]
        have e1 : writesSize (insertWrite tx.writes k ⟨tag, v, vsz⟩) =
            writesSize tx.writes + k.length + vsz := by
          simpa using writesSize_insertWrite_none tx.writes k ⟨tag, v, vsz⟩ hfind
        rw [hm', e1]
        push_cast
        omega
      · simp only [hfind]
        have e1 : writesSize (insertWrite tx.writes k ⟨tag, v, vsz⟩) + h0.memoryUsage =
            writesSize tx.writes + vsz := by
          have := writesSize_insertWrite_some tx.writes k ⟨tag, v, vsz⟩ h0 hw hfind
          simpa using this
        rw [hm']
        push_cast
        show (writesSize tx.writes : Int) + (deletesSize tx.deletes : Int) -
            ((List.length k : Int) + (h0.memoryUsage : Int)) + (List.length k : Int) + (vsz : Int) =
          (writesSize (insertWrite tx.writes k ⟨tag, v, vsz⟩) : Int) + (deletesSize tx.deletes : Int)
        omega

theorem Erase_eq_some {tx : CDBTransaction} {k : Key} {h0 : ValueHolder}
    (hf : writesFind tx.writes k = some h0) :
    tx.Erase k =
      if containsKey tx.deletes k then
        ⟨removeWrite tx.writes k, tx.deletes,
          tx.memoryUsage - (k.length + h0.memoryUsage)⟩
      else
        ⟨removeWrite tx.writes k, insertDelete tx.deletes k,
          tx.memoryUsage - (k.length + h0.memoryUsage) + k.length⟩ := by
  unfold CDBTransaction.Erase
  rw [hf]

theorem Erase_eq_none {tx : CDBTransaction} {k : Key}
    (hf : writesFind tx.writes k = none) :
    tx.Erase k =
      if containsKey tx.deletes k then
        ⟨removeWrite tx.writes k, tx.deletes, tx.memoryUsage⟩
      else
        ⟨removeWrite tx.writes k, insertDelete tx.deletes k,
          tx.memoryUsage + k.length⟩ := by
  unfold CDBTransaction.Erase
  rw [hf]

theorem wf_Erase {tx : CDBTransaction} (hwf : WF tx) (k : Key) :
    WF (tx.Erase k) := by
  obtain ⟨hw, hd, hdisj, hm⟩ := hwf
  have hm' : tx.memoryUsage = ((writesSize tx.writes + deletesSize tx.deletes : Nat) : Int) := hm
  by_cases hck : containsKey tx.deletes k = true
  · have hkd : k ∈ tx.deletes := containsKey_iff_mem.mp hck
    have hfn : writesFind tx.writes k = none := hdisj k hkd
    rw [Erase_eq_none hfn, if_pos hck, removeWrite_of_find_none hfn]
    exact ⟨hw, hd, hdisj, hm⟩
  · have hcf : containsKey tx.deletes k = false := by simpa using hck
    rcases hfind : writesFind tx.writes k with - | h0
    · rw [Erase_eq_none hfind, if_neg hck, removeWrite_of_find_none hfind]
      refine ⟨hw, pairwise_insertDelete hd, ?_, ?_⟩
      · intro k' hk'
        rcases mem_insertDelete.mp hk' with hk' | rfl
        · exact hdisj k' hk'
        · exact hfind
      · show tx.memoryUsage + (k.length : Int) =
          ((writesSize tx.writes + deletesSize (insertDelete tx.deletes k) : Nat) : Int)
        rw [hm', deletesSize_insertDelete _ _ hcf]
        push_cast
        omega
    · rw [Erase_eq_some hfind, if_neg hck]
      refine ⟨?_, pairwise_insertDelete hd, ?_, ?_⟩
      · show List.Pairwise _ (writeKeys (removeWrite tx.writes k))
        rw [keys_removeWrite]
        exact pairwise_removeDelete hw
      · intro k' hk'
        rcases mem_insertDelete.mp hk' with hk' | rfl
        · by_cases hkk : k' = k
          · subst hkk
            exact writesFind_removeWrite_self hw
          · rw [writesFind_removeWrite_ne _ _ _ hkk]
            exact hdisj k' hk'
        · exact writesFind_removeWrite_self hw
      · show tx.memoryUsage - ((k.length : Int) + h0.memoryUsage) + k.length =
          ((writesSize (removeWrite tx.writes k) +
            deletesSize (insertDelete tx.deletes k) : Nat) : Int)
        have e1 : writesSize (removeWrite tx.writes k) + k.length + h0.memoryUsage =
            writesSize tx.writes := writesSize_removeWrite _ _ _ hfind
        rw [hm', deletesSize_insertDelete _ _ hcf]
        push_cast
        omega

theorem wf_Clear (tx : CDBTransaction) : WF tx.Clear := by
  refine ⟨List.Pairwise.nil, List.Pairwise.nil, ?_, rfl⟩
  intro k hk
  simp [CDBTransaction.Clear] at hk

/-- The overlay operations as state transformers on the overlay.
`Read`/`Exists` do not modify the overlay state; `Commit`'s effect on
the overlay itself is `Clear()`. -/
inductive Op where
  | write (k : Key) (tag v vsz : Nat) : Op
  | erase (k : Key) : Op
  | clear : Op
  | commit : Op
  | read (tag : Nat) (k : Key) : Op
  | queryExists (k : Key) : Op

/-- A commit target that discards the transferred entries; used when
only the overlay-side effect of `Commit` matters. -/
def unitTarget : StoreModel Unit := ⟨fun _ _ => (), fun _ _ _ => ()⟩

/-- Apply one overlay operation to the overlay state. -/
def applyOp (tx : CDBTransaction) : Op → CDBTransaction
  | .write k tag v vsz => tx.Write k tag v vsz
  | .erase k => tx.Erase k
  | .clear => tx.Clear
  | .commit => (tx.Commit unitTarget ()).1
  | .read _ _ => tx
  | .queryExists _ => tx

/-- Apply a sequence of overlay operations, left to right. -/
def applyOps (tx : CDBTransaction) (ops : List Op) : CDBTransaction :=
  ops.foldl applyOp tx

theorem wf_applyOp {tx : CDBTransaction} (hwf : WF tx) (op : Op) :
    WF (applyOp tx op) := by
  cases op with
  | write k tag v vsz => exact wf_Write hwf k tag v vsz
  | erase k => exact wf_Erase hwf k
  | clear => exact wf_Clear tx
  | commit => exact wf_Clear tx
  | read tag k => exact hwf
  | queryExists k => exact hwf

theorem wf_applyOps {tx : CDBTransaction} (hwf : WF tx) (ops : List Op) :
    WF (applyOps tx ops) := by
  induction ops generalizing tx with
  | nil => exact hwf
  | cons op rest ih => exact ih (wf_applyOp hwf op)

/-- **C4.** For every sequence of overlay operations (Write, Erase,
Clear, Commit, Read, Exists) applied to a fresh overlay, no key is ever
simultaneously in both the write-set and the delete-set: Write removes
the key from the delete-set before inserting into the write-set, Erase
removes it from the write-set before inserting into the delete-set, and
every operation preserves the disjointness. -/
theorem overlay_sets_disjoint (ops : List Op) :
    ∀ k ∈ (applyOps CDBTransaction.init ops).deletes,
      writesFind (applyOps CDBTransaction.init ops).writes k = none :=
  (wf_applyOps wf_init ops).2.2.1

theorem overlay_sets_disjoint_witness :
    writesFind (applyOps CDBTransaction.init
      [Op.write [3] 0 7 1, Op.erase [3]]).writes [3] = none :=
  overlay_sets_disjoint [Op.write [3] 0 7 1, Op.erase [3]] [3] (by decide)

/-- **C5.** After any sequence of overlay operations starting from a
fresh overlay, the internal `memoryUsage` counter equals the sum over
all write-set entries of serialized key size plus value size, plus the
sum over all delete-set entries of serialized key size; in particular
it is never negative. -/
theorem overlay_memory_usage (ops : List Op) :
    (applyOps CDBTransaction.init ops).memoryUsage =
      ((writesSize (applyOps CDBTransaction.init ops).writes +
        deletesSize (applyOps CDBTransaction.init ops).deletes : Nat) : Int) ∧
    0 ≤ (applyOps CDBTransaction.init ops).memoryUsage := by
  have h : (applyOps CDBTransaction.init ops).memoryUsage =
      ((writesSize (applyOps CDBTransaction.init ops).writes +
        deletesSize (applyOps CDBTransaction.init ops).deletes : Nat) : Int) :=
    (wf_applyOps wf_init ops).2.2.2
  refine ⟨h, ?_⟩
  rw [h]
  exact Int.natCast_nonneg _

/-- **C6.** `GetMemoryUsage` clamps: when the internal signed counter is
negative it returns 0 (the diagnostic is only logged) and execution
continues; otherwise it returns the counter's value unchanged. -/
theorem getMemoryUsage_clamps (tx : CDBTransaction) :
    (tx.memoryUsage < 0 → tx.GetMemoryUsage = 0) ∧
    (0 ≤ tx.memoryUsage → (tx.GetMemoryUsage : Int) = tx.memoryUsage) := by
  constructor
  · intro h
    simp [CDBTransaction.GetMemoryUsage, h]
  · intro h
    simp [CDBTransaction.GetMemoryUsage, not_lt.mpr h, Int.toNat_of_nonneg h]

theorem getMemoryUsage_clamps_witness :
    CDBTransaction.GetMemoryUsage ⟨[], [], -5⟩ = 0 ∧
    (CDBTransaction.GetMemoryUsage ⟨[], [], 7⟩ : Int) = 7 :=
  ⟨(getMemoryUsage_clamps ⟨[], [], -5⟩).1 (by decide),
   (getMemoryUsage_clamps ⟨[], [], 7⟩).2 (by decide)⟩

/-- **C3.** Overlay `Read` and `Exists` apply the same shadowing
precedence: a delete-set key is not-found/false regardless of write-set
and parent; otherwise a write-set key yields the held value/true;
otherwise the call delegates to the parent. -/
theorem overlay_read_exists_precedence (tx : CDBTransaction)
    (parentRead : Nat → Key → ReadResult) (parentExists : Key → Bool)
    (tag : Nat) (k : Key) (h : ValueHolder) :
    (containsKey tx.deletes k = true →
      tx.Read parentRead tag k = .notFound ∧ tx.Exists parentExists k = false) ∧
    (containsKey tx.deletes k = false → writesFind tx.writes k = some h →
      (h.typeTag = tag → tx.Read parentRead tag k = .found h.value) ∧
      tx.Exists parentExists k = true) ∧
    (containsKey tx.deletes k = false → writesFind tx.writes k = none →
      tx.Read parentRead tag k = parentRead tag k ∧
      tx.Exists parentExists k = parentExists k) := by
  refine ⟨?_, ?_, ?_⟩
  · intro hc
    constructor
    · simp [CDBTransaction.Read, hc]
    · simp [CDBTransaction.Exists, hc]
  · intro hc hf
    constructor
    · intro ht
      simp [CDBTransaction.Read, hc, hf, ht]
    · simp [CDBTransaction.Exists, hc, hf]
  · intro hc hf
    constructor
    · simp [CDBTransaction.Read, hc, hf]
    · simp [CDBTransaction.Exists, hc, hf]

theorem overlay_read_exists_precedence_witness :
    (CDBTransaction.Read ⟨[([2], ⟨1, 9, 1⟩)], [[1]], 0⟩
      (fun _ _ => .found 42) 1 [1] = .notFound) ∧
    (CDBTransaction.Read ⟨[([2], ⟨1, 9, 1⟩)], [[1]], 0⟩
      (fun _ _ => .found 42) 1 [2] = .found 9) ∧
    (CDBTransaction.Read ⟨[([2], ⟨1, 9, 1⟩)], [[1]], 0⟩
      (fun _ _ => .found 42) 1 [5] = .found 42) := by
  refine ⟨?_, ?_, ?_⟩
  · exact ((overlay_read_exists_precedence ⟨[([2], ⟨1, 9, 1⟩)], [[1]], 0⟩
      (fun _ _ => .found 42) (fun _ => true) 1 [1] ⟨1, 9, 1⟩).1 (by decide)).1
  · exact ((overlay_read_exists_precedence ⟨[([2], ⟨1, 9, 1⟩)], [[1]], 0⟩
      (fun _ _ => .found 42) (fun _ => true) 1 [2] ⟨1, 9, 1⟩).2.1 (by decide) (by decide)).1 rfl
  · exact ((overlay_read_exists_precedence ⟨[([2], ⟨1, 9, 1⟩)], [[1]], 0⟩
      (fun _ _ => .found 42) (fun _ => true) 1 [5] ⟨1, 9, 1⟩).2.2 (by decide) (by decide)).1

/-- **C9.** After `Write k tag v vsz`, reading key `k` with a different
value type faults (the `dynamic_cast` check throws); reading with the
matching type returns exactly the value written. -/
theorem overlay_read_type_mismatch (tx : CDBTransaction)
    (hd : List.Pairwise (fun a b => lexLess a b = true) tx.deletes)
    (parentRead : Nat → Key → ReadResult) (k : Key) (tag v vsz t : Nat) :
    (t ≠ tag → (tx.Write k tag v vsz).Read parentRead t k = .fault) ∧
    (tx.Write k tag v vsz).Read parentRead tag k = .found v := by
  have hdel : containsKey (tx.Write k tag v vsz).deletes k = false := by
    rw [Write_deletes]
    exact containsKey_removeDelete_self hd
  have hfind : writesFind (tx.Write k tag v vsz).writes k = some ⟨tag, v, vsz⟩ := by
    rw [Write_writes]
    exact writesFind_insertWrite_self _ _ _
  constructor
  · intro ht
    simp [CDBTransaction.Read, hdel, hfind, Ne.symm ht]
  · simp [CDBTransaction.Read, hdel, hfind]

theorem overlay_read_type_mismatch_witness :
    (CDBTransaction.Read (CDBTransaction.Write CDBTransaction.init [1] 2 5 1)
      (fun _ _ => .notFound) 3 [1] = .fault) ∧
    (CDBTransaction.Read (CDBTransaction.Write CDBTransaction.init [1] 2 5 1)
      (fun _ _ => .notFound) 2 [1] = .found 5) :=
  ⟨(overlay_read_type_mismatch CDBTransaction.init List.Pairwise.nil
      (fun _ _ => .notFound) [1] 2 5 1 3).1 (by decide),
   (overlay_read_type_mismatch CDBTransaction.init List.Pairwise.nil
      (fun _ _ => .notFound) [1] 2 5 1 3).2⟩

/-- **C8.** The store wrapper's typed `Read` returns not-found both
when the key is absent from the store and when the stored bytes fail to
deserialize; a decode failure is never surfaced differently from
absence (in particular `Read` never faults). -/
theorem cdbwrapper_read_not_found (w : CDBWrapper)
    (decode : Nat → List Nat → Option Nat) (tag : Nat) (k : Key) :
    (w.ReadImpl k = none → w.Read decode tag k = .notFound) ∧
    (∀ bytes, w.ReadImpl k = some bytes →
      decode tag (xorBytes bytes w.obfuscate_key) = none →
      w.Read decode tag k = .notFound) ∧
    w.Read decode tag k ≠ .fault := by
  refine ⟨?_, ?_, ?_⟩
  · intro hx
    simp [CDBWrapper.Read, hx]
  · intro bytes hx hdec
    simp [CDBWrapper.Read, hx, hdec]
  · rcases hx : w.ReadImpl k with - | bytes
    · simp [CDBWrapper.Read, hx]
    · rcases hy : decode tag (xorBytes bytes w.obfuscate_key) with - | v
      · simp [CDBWrapper.Read, hx, hy]
      · simp [CDBWrapper.Read, hx, hy]

theorem cdbwrapper_read_not_found_witness :
    CDBWrapper.Read ⟨[([1], [2])], []⟩ (fun _ _ => none) 0 [3] = .notFound ∧
    CDBWrapper.Read ⟨[([1], [2])], []⟩ (fun _ _ => none) 0 [1] = .notFound :=
  ⟨(cdbwrapper_read_not_found ⟨[([1], [2])], []⟩ (fun _ _ => none) 0 [3]).1 (by decide),
   (cdbwrapper_read_not_found ⟨[([1], [2])], []⟩ (fun _ _ => none) 0 [1]).2.1
     [2] (by decide) rfl⟩

/-- **C10.** When the merge iterator is invalid (both the transaction
leg and the parent leg are exhausted) its accessors are total: `Next`
is a no-op, typed `GetKey`/`GetValue` return false, the untyped
`GetKey` returns an empty stream, and `GetKeySize` returns 0. -/
theorem iterator_invalid_total (tx : CDBTransaction) (parent : List Key)
    (decK : Key → Option Nat) (parentRead : Nat → Key → ReadResult) (tag : Nat)
    (st : CDBTransactionIterator)
    (h : CDBTransactionIterator.Valid tx parent st = false) :
    CDBTransactionIterator.next tx parent st = st ∧
    CDBTransactionIterator.getKeyTyped tx parent decK st = none ∧
    CDBTransactionIterator.getValue tx parent parentRead tag st = .notFound ∧
    CDBTransactionIterator.getKeyStream tx parent st = [] ∧
    CDBTransactionIterator.getKeySize tx parent st = 0 := by
  have h1 : ¬ st.txIdx < tx.writes.length := by
    by_contra hc
    simp [CDBTransactionIterator.Valid, hc] at h
  have h2 : ¬ st.pIdx < parent.length := by
    by_contra hc
    simp [CDBTransactionIterator.Valid, hc] at h
  refine ⟨?_, ?_, ?_, ?_, ?_⟩
  · simp [CDBTransactionIterator.next, h1, h2]
  · simp [CDBTransactionIterator.getKeyTyped, h]
  · simp [CDBTransactionIterator.getValue, h]
  · simp [CDBTransactionIterator.getKeyStream, h]
  · simp [CDBTransactionIterator.getKeySize, h]

theorem iterator_invalid_total_witness :
    CDBTransactionIterator.next CDBTransaction.init [] ⟨0, 0, [], false⟩ =
      ⟨0, 0, [], false⟩ ∧
    CDBTransactionIterator.getKeySize CDBTransaction.init [] ⟨0, 0, [], false⟩ = 0 := by
  have h := iterator_invalid_total CDBTransaction.init [] (fun _ => some 0)
    (fun _ _ => .found 1) 0 ⟨0, 0, [], false⟩ (by decide)
  exact ⟨h.1, h.2.2.2.2⟩

/-- **C1 (counterexample).** A state with both legs valid and positioned
at byte-equal keys in which `DecideCur` marks the parent leg — not the
transaction leg — as current, refuting the claimed tie-breaking
direction. -/
theorem decideCur_tie_cex :
    (0 < (⟨[([1], ⟨0, 5, 1⟩)], [], 0⟩ : CDBTransaction).writes.length) ∧
    (0 < ([[1]] : List Key).length) ∧
    ((⟨[([1], ⟨0, 5, 1⟩)], [], 0⟩ : CDBTransaction).writes.getD 0 ([], ⟨0, 0, 0⟩)).1 =
      ([[1]] : List Key).getD 0 [] ∧
    CDBTransactionIterator.decideCur ⟨[([1], ⟨0, 5, 1⟩)], [], 0⟩ [[1]] 0 0 [1] false =
      true := by
  decide

theorem decideCur_ok (tx : CDBTransaction) (parent : List Key)
    (txIdx pIdx : Nat) (pk : Key) (cur : Bool) :
    (txIdx < tx.writes.length → ¬ pIdx < parent.length →
      CDBTransactionIterator.decideCur tx parent txIdx pIdx pk cur = false) ∧
    (¬ txIdx < tx.writes.length → pIdx < parent.length →
      CDBTransactionIterator.decideCur tx parent txIdx pIdx pk cur = true) ∧
    (∀ (h1 : txIdx < tx.writes.length), pIdx < parent.length →
      CDBTransactionIterator.decideCur tx parent txIdx pIdx pk cur =
        !(lexLess (tx.writes.get ⟨txIdx, h1⟩).1 pk)) := by
  unfold CDBTransactionIterator.decideCur
  refine ⟨?_, ?_, ?_⟩
  · intro h1 h2
    rw [if_pos ⟨h1, h2⟩]
  · intro h1 h2
    rw [if_neg (fun hc => h1 hc.1), if_pos ⟨h1, h2⟩]
  · intro h1 h2
    rw [if_neg (fun hc => hc.2 h2), if_neg (fun hc => hc.1 h1), dif_pos ⟨h1, h2⟩]
    show (if lexLess (tx.writes.get ⟨txIdx, h1⟩).1 pk = true then false else true) = _
    cases hl : lexLess (tx.writes.get ⟨txIdx, h1⟩).1 pk
    · simp
    · simp

/-- **C1 (amended).** Whenever both legs are valid at lexicographically
equal keys, `DecideCur` makes the parent leg current (`curIsParent`
becomes true); nevertheless, because `GetValue` re-reads the parent key
through the overlay's `Read`, the value returned at such a tie is still
the write-set entry's value whenever the tied key is a non-deleted
write-set entry, and the two key streams are byte-equal. -/
theorem decideCur_tie_parent (tx : CDBTransaction) (parent : List Key)
    (txIdx pIdx : Nat) (pk : Key) (cur : Bool)
    (htx : txIdx < tx.writes.length) (hp : pIdx < parent.length)
    (heq : (tx.writes.get ⟨txIdx, htx⟩).1 = pk) :
    CDBTransactionIterator.decideCur tx parent txIdx pIdx pk cur = true ∧
    (∀ (parentRead : Nat → Key → ReadResult) (h : ValueHolder),
      writesFind tx.writes pk = some h → containsKey tx.deletes pk = false →
      CDBTransactionIterator.getValue tx parent parentRead h.typeTag
        ⟨txIdx, pIdx, pk, true⟩ = .found h.value) := by
  constructor
  · have hspec := (decideCur_ok tx parent txIdx pIdx pk cur).2.2 htx hp
    rw [heq, lexLess_irrefl] at hspec
    simpa using hspec
  · intro parentRead h hf hc
    have hv : CDBTransactionIterator.Valid tx parent ⟨txIdx, pIdx, pk, true⟩ = true := by
      simp [CDBTransactionIterator.Valid]
      omega
    simp [CDBTransactionIterator.getValue, hv, CDBTransaction.Read, hc, hf]

theorem decideCur_tie_parent_witness :
    CDBTransactionIterator.decideCur ⟨[([2], ⟨1, 7, 1⟩)], [], 0⟩ [[2]] 0 0 [2] false =
      true ∧
    CDBTransactionIterator.getValue ⟨[([2], ⟨1, 7, 1⟩)], [], 0⟩ [[2]]
      (fun _ _ => .notFound) 1 ⟨0, 0, [2], true⟩ = .found 7 := by
  have h := decideCur_tie_parent ⟨[([2], ⟨1, 7, 1⟩)], [], 0⟩ [[2]] 0 0 [2] false
    (by decide) (by decide) (by decide)
  exact ⟨h.1, h.2 (fun _ _ => .notFound) ⟨1, 7, 1⟩ (by decide) (by decide)⟩

theorem foldl_erase_not_mem {σ : Type} (S : StoreModel σ) (readS : σ → Key → Bool)
    (h2 : ∀ s k' k'', k'' ≠ k' → readS (S.erase s k') k'' = readS s k'') :
    ∀ (l : List Key) (t : σ) (k : Key), k ∉ l →
      readS (l.foldl S.erase t) k = readS t k
  | [], _, _, _ => rfl
  | a :: rest, t, k, hk => by
    have hka : k ≠ a := fun hh => hk (hh ▸ List.mem_cons_self a rest)
    have hkr : k ∉ rest := fun hh => hk (List.mem_cons_of_mem a hh)
    simp only [List.foldl_cons]
    rw [foldl_erase_not_mem S readS h2 rest (S.erase t a) k hkr, h2 t a k hka]

theorem foldl_erase_mem {σ : Type} (S : StoreModel σ) (readS : σ → Key → Bool)
    (h1 : ∀ s k', readS (S.erase s k') k' = false)
    (h2 : ∀ s k' k'', k'' ≠ k' → readS (S.erase s k') k'' = readS s k'') :
    ∀ (l : List Key) (t : σ) (k : Key), k ∈ l →
      readS (l.foldl S.erase t) k = false
  | [], _, k, hk => by simp at hk
  | a :: rest, t, k, hk => by
    simp only [List.foldl_cons]
    by_cases hkr : k ∈ rest
    · exact foldl_erase_mem S readS h1 h2 rest (S.erase t a) k hkr
    · have hka : k = a := by
        rcases List.mem_cons.mp hk with h | h
        · exact h
        · exact absurd h hkr
      subst hka
      rw [foldl_erase_not_mem S readS h2 rest (S.erase t k) k hkr, h1 t k]

theorem foldl_write_not_mem {σ : Type} (S : StoreModel σ) (readS : σ → Key → Bool)
    (h3 : ∀ s k' h k'', k'' ≠ k' → readS (S.write s k' h) k'' = readS s k'') :
    ∀ (w : List (Key × ValueHolder)) (t : σ) (k : Key),
      (∀ p ∈ w, p.1 ≠ k) →
      readS (w.foldl (fun s p => S.write s p.1 p.2) t) k = readS t k
  | [], _, _, _ => rfl
  | (a, h) :: rest, t, k, hw => by
    simp only [List.foldl_cons]
    rw [foldl_write_not_mem S readS h3 rest _ k
        (fun p hp => hw p (List.mem_cons_of_mem _ hp)),
      h3 t a h k (fun hh => hw (a, h) (List.mem_cons_self _ _) hh.symm)]

/-- **C7.** `Commit` first calls the target's `Erase` for every
delete-set key, then the target's `Write` for every write-set entry,
and afterwards clears both sets and resets memory usage to zero.
Consequently, for any commit target whose `Erase`/`Write` obey the
usual store laws, after `Erase(key)` followed by `Commit()` a read of
that key against the commit target reports not-found, even if the
target contained the key beforehand. -/
theorem commit_erase_then_write {σ : Type} (S : StoreModel σ)
    (readS : σ → Key → Bool) (target : σ) (tx : CDBTransaction) (k : Key)
    (h1 : ∀ s k', readS (S.erase s k') k' = false)
    (h2 : ∀ s k' k'', k'' ≠ k' → readS (S.erase s k') k'' = readS s k'')
    (h3 : ∀ s k' h k'', k'' ≠ k' → readS (S.write s k' h) k'' = readS s k'')
    (hk : k ∈ tx.deletes)
    (hdisj : ∀ k' ∈ tx.deletes, writesFind tx.writes k' = none) :
    readS (tx.Commit S target).2 k = false ∧
    (tx.Commit S target).1 = CDBTransaction.init := by
  constructor
  · show readS (commitInto S tx target) k = false
    unfold commitInto
    have hkw : ∀ p ∈ tx.writes, p.1 ≠ k := by
      intro p hp hpk
      have : k ∈ writeKeys tx.writes := by
        rw [← hpk]
        exact List.mem_map_of_mem Prod.fst hp
      exact (writesFind_eq_none_iff.mp (hdisj k hk)) this
    rw [foldl_write_not_mem S readS h3 tx.writes _ k hkw]
    exact foldl_erase_mem S readS h1 h2 tx.deletes target k hk
  · rfl

/-- A minimal commit target used to witness the store laws: the state
maps each key to whether it is present. -/
def funStore : StoreModel (Key → Bool) :=
  ⟨fun s k => fun k' => if k' = k then false else s k',
   fun s k _ => fun k' => if k' = k then true else s k'⟩

theorem funStore_read_erase (s : Key → Bool) (k' : Key) :
    (funStore.erase s k') k' = false := by
  simp [funStore]

theorem funStore_read_erase_ne (s : Key → Bool) (k' k'' : Key) (h : k'' ≠ k') :
    (funStore.erase s k') k'' = s k'' := by
  simp [funStore, h]

theorem funStore_read_write_ne (s : Key → Bool) (k' : Key) (hv : ValueHolder)
    (k'' : Key) (h : k'' ≠ k') :
    (funStore.write s k' hv) k'' = s k'' := by
  simp [funStore, h]

theorem commit_erase_then_write_witness :
    ((CDBTransaction.Commit funStore ⟨[], [[4]], 4⟩ (fun _ => true)).2 [4] = false) ∧
    (CDBTransaction.Commit funStore ⟨[], [[4]], 4⟩ (fun _ => true)).1 =
      CDBTransaction.init := by
  have h := commit_erase_then_write funStore (fun s k => s k) (fun _ => true)
    ⟨[], [[4]], 4⟩ [4]
    (fun s k' => funStore_read_erase s k')
    (fun s k' k'' hne => funStore_read_erase_ne s k' k'' hne)
    (fun s k' hv k'' hne => funStore_read_write_ne s k' hv k'' hne)
    (by decide) (by decide)
  exact h

/-- The parent keys that survive the shadow filter. -/
def unshadowedKeys (tx : CDBTransaction) (l : List Key) : List Key :=
  l.filter (fun x => !shadowed tx x)

theorem skipDO_spec (tx : CDBTransaction) (parent : List Key) :
    ∀ (n pIdx : Nat) (pk : Key), parent.length - pIdx ≤ n →
      pIdx ≤ (CDBTransactionIterator.skipDO tx parent pIdx pk).1 ∧
      (pIdx ≤ parent.length →
        (CDBTransactionIterator.skipDO tx parent pIdx pk).1 ≤ parent.length) ∧
      (∀ hp : (CDBTransactionIterator.skipDO tx parent pIdx pk).1 < parent.length,
        shadowed tx (parent.get ⟨_, hp⟩) = false ∧
        (CDBTransactionIterator.skipDO tx parent pIdx pk).2 =
          parent.get ⟨_, hp⟩) ∧
      unshadowedKeys tx
          (parent.drop (CDBTransactionIterator.skipDO tx parent pIdx pk).1) =
        unshadowedKeys tx (parent.drop pIdx) := by
  intro n
  induction n with
  | zero =>
    intro pIdx pk hn
    have hge : ¬ pIdx < parent.length := by omega
    rw [CDBTransactionIterator.skipDO, dif_neg hge]
    refine ⟨le_refl _, fun h => h, fun hp => absurd hp hge, rfl⟩
  | succ n ih =>
    intro pIdx pk hn
    rw [CDBTransactionIterator.skipDO]
    by_cases h : pIdx < parent.length
    · rw [dif_pos h]
      by_cases hs : shadowed tx (parent.get ⟨pIdx, h⟩) = true
      · rw [if_pos hs]
        have hrec := ih (pIdx + 1) (parent.get ⟨pIdx, h⟩) (by omega)
        refine ⟨by omega, fun _ => hrec.2.1 (by omega), hrec.2.2.1, ?_⟩
        rw [hrec.2.2.2]
        rw [List.drop_eq_getElem_cons h]
        unfold unshadowedKeys
        rw [List.filter_cons_of_neg (by simpa using hs)]
      · rw [if_neg hs]
        refine ⟨le_refl _, fun _ => by omega, ?_, rfl⟩
        intro hp
        exact ⟨by simpa using hs, rfl⟩
    · rw [dif_neg h]
      refine ⟨le_refl _, fun hle => hle, fun hp => absurd hp h, rfl⟩

/-- Position invariant of a reachable iterator state: indices in range
and, when the parent leg is valid, the parent position is post-skip
(unshadowed) with `parentKey` caching the parent's current key. -/
def PosOK (tx : CDBTransaction) (parent : List Key)
    (st : CDBTransactionIterator) : Prop :=
  st.txIdx ≤ tx.writes.length ∧ st.pIdx ≤ parent.length ∧
  ∀ hp : st.pIdx < parent.length,
    shadowed tx (parent.get ⟨st.pIdx, hp⟩) = false ∧
    st.parentKey = parent.get ⟨st.pIdx, hp⟩

/-- Correctness of the `curIsParent` flag with respect to `DecideCur`:
whenever at least one leg is valid the flag singles out the leg with the
smaller key (parent on ties). -/
def CurOK (tx : CDBTransaction) (parent : List Key)
    (st : CDBTransactionIterator) : Prop :=
  (st.txIdx < tx.writes.length → ¬ st.pIdx < parent.length →
    st.curIsParent = false) ∧
  (¬ st.txIdx < tx.writes.length → st.pIdx < parent.length →
    st.curIsParent = true) ∧
  ∀ (h1 : st.txIdx < tx.writes.length), st.pIdx < parent.length →
    st.curIsParent = !(lexLess (tx.writes.get ⟨st.txIdx, h1⟩).1 st.parentKey)

theorem decideCur_curOK (tx : CDBTransaction) (parent : List Key)
    (txIdx pIdx : Nat) (pk : Key) (cur : Bool) :
    CurOK tx parent ⟨txIdx, pIdx, pk,
      CDBTransactionIterator.decideCur tx parent txIdx pIdx pk cur⟩ := by
  have h := decideCur_ok tx parent txIdx pIdx pk cur
  exact ⟨fun a b => h.1 a b, fun a b => h.2.1 a b, fun a b => h.2.2 a b⟩

theorem seekToFirst_spec (tx : CDBTransaction) (parent : List Key) :
    PosOK tx parent (CDBTransactionIterator.seekToFirst tx parent) ∧
    CurOK tx parent (CDBTransactionIterator.seekToFirst tx parent) ∧
    (CDBTransactionIterator.seekToFirst tx parent).txIdx = 0 ∧
    unshadowedKeys tx
        (parent.drop (CDBTransactionIterator.seekToFirst tx parent).pIdx) =
      unshadowedKeys tx parent := by
  have hs := skipDO_spec tx parent parent.length 0 [] (by omega)
  refine ⟨⟨Nat.zero_le _, hs.2.1 (Nat.zero_le _), ?_⟩, ?_, rfl, ?_⟩
  · intro hp
    exact hs.2.2.1 hp
  · exact decideCur_curOK tx parent 0 _ _ false
  · simpa using hs.2.2.2

theorem traverseKeys_succ (tx : CDBTransaction) (parent : List Key)
    (n : Nat) (st : CDBTransactionIterator) :
    CDBTransactionIterator.traverseKeys tx parent (n + 1) st =
      if CDBTransactionIterator.Valid tx parent st = true then
        CDBTransactionIterator.getKeyStream tx parent st ::
          CDBTransactionIterator.traverseKeys tx parent n
            (CDBTransactionIterator.next tx parent st)
      else [] := rfl

theorem mergeKeys_nil_left (ys : List Key) : mergeKeys [] ys = ys := by
  cases ys <;> simp [mergeKeys]

theorem mergeKeys_nil_right (xs : List Key) : mergeKeys xs [] = xs := by
  cases xs <;> simp [mergeKeys]

theorem mergeKeys_cons_cons (x y : Key) (xs ys : List Key) :
    mergeKeys (x :: xs) (y :: ys) =
      if lexLess x y = true then x :: mergeKeys xs (y :: ys)
      else y :: mergeKeys (x :: xs) ys := by
  simp [mergeKeys]

theorem unshadowedKeys_nil (tx : CDBTransaction) : unshadowedKeys tx [] = [] := rfl

theorem traverse_eq_merge (tx : CDBTransaction) (parent : List Key) :
    ∀ (n : Nat) (st : CDBTransactionIterator),
      PosOK tx parent st → CurOK tx parent st →
      (tx.writes.length - st.txIdx) + (parent.length - st.pIdx) ≤ n →
      CDBTransactionIterator.traverseKeys tx parent n st =
        mergeKeys ((writeKeys tx.writes).drop st.txIdx)
          (unshadowedKeys tx (parent.drop st.pIdx)) := by
  intro n
  induction n with
  | zero =>
    intro st hpos hcur hn
    have h1 : tx.writes.length ≤ st.txIdx := by omega
    have h2 : parent.length ≤ st.pIdx := by omega
    have e1 : (writeKeys tx.writes).drop st.txIdx = [] :=
      List.drop_eq_nil_of_le (by simpa [writeKeys] using h1)
    have e2 : parent.drop st.pIdx = [] := List.drop_eq_nil_of_le h2
    rw [e1, e2, unshadowedKeys_nil, mergeKeys_nil_left]
    rfl
  | succ n ih =>
    intro st hpos hcur hn
    obtain ⟨htxle, hple, hpk⟩ := hpos
    rw [traverseKeys_succ]
    by_cases hval : CDBTransactionIterator.Valid tx parent st = true
    · rw [if_pos hval]
      have hor : st.txIdx < tx.writes.length ∨ st.pIdx < parent.length := by
        simpa [CDBTransactionIterator.Valid] using hval
      by_cases hcp : st.curIsParent = true
      · -- parent leg is current
        have hp2 : st.pIdx < parent.length := by
          by_contra hc
          have htx : st.txIdx < tx.writes.length := by
            rcases hor with h | h
            · exact h
            · exact absurd h hc
          have hfalse := hcur.1 htx hc
          rw [hcp] at hfalse
          cases hfalse
        obtain ⟨hshad, hpkey⟩ := hpk hp2
        have hkey : CDBTransactionIterator.getKeyStream tx parent st = st.parentKey := by
          unfold CDBTransactionIterator.getKeyStream
          rw [if_neg (by simp [hval]), if_pos hcp]
        have hnext : CDBTransactionIterator.next tx parent st =
            ⟨st.txIdx,
             (CDBTransactionIterator.skipDO tx parent (st.pIdx + 1) st.parentKey).1,
             (CDBTransactionIterator.skipDO tx parent (st.pIdx + 1) st.parentKey).2,
             CDBTransactionIterator.decideCur tx parent st.txIdx
               (CDBTransactionIterator.skipDO tx parent (st.pIdx + 1) st.parentKey).1
               (CDBTransactionIterator.skipDO tx parent (st.pIdx + 1) st.parentKey).2
               st.curIsParent⟩ := by
          unfold CDBTransactionIterator.next
          rw [if_neg (fun hc => hc.2 hp2), if_pos hcp]
        have hsk := skipDO_spec tx parent parent.length (st.pIdx + 1) st.parentKey
          (by omega)
        have hpos' : PosOK tx parent (CDBTransactionIterator.next tx parent st) := by
          rw [hnext]
          exact ⟨htxle, hsk.2.1 (by omega), hsk.2.2.1⟩
        have hcur' : CurOK tx parent (CDBTransactionIterator.next tx parent st) := by
          rw [hnext]
          exact decideCur_curOK tx parent st.txIdx _ _ st.curIsParent
        have hms : (tx.writes.length - (CDBTransactionIterator.next tx parent st).txIdx) +
            (parent.length - (CDBTransactionIterator.next tx parent st).pIdx) ≤ n := by
          rw [hnext]
          show tx.writes.length - st.txIdx +
            (parent.length -
              (CDBTransactionIterator.skipDO tx parent (st.pIdx + 1) st.parentKey).1) ≤ n
          have hs1 := hsk.1
          omega
        have hih := ih (CDBTransactionIterator.next tx parent st) hpos' hcur' hms
        rw [hnext] at hih
        simp only [] at hih
        rw [hsk.2.2.2] at hih
        rw [← hnext] at hih
        have hdrop : parent.drop st.pIdx = parent[st.pIdx] :: parent.drop (st.pIdx + 1) :=
          List.drop_eq_getElem_cons hp2
        have hcons : unshadowedKeys tx (parent.drop st.pIdx) =
            st.parentKey :: unshadowedKeys tx (parent.drop (st.pIdx + 1)) := by
          rw [hdrop]
          unfold unshadowedKeys
          rw [List.filter_cons_of_pos
            (by simp [show shadowed tx parent[st.pIdx] = false from hshad])]
          rw [hpkey]
          rfl
        rw [hcons, hkey]
        by_cases htx : st.txIdx < tx.writes.length
        · have hless : lexLess (tx.writes.get ⟨st.txIdx, htx⟩).1 st.parentKey = false := by
            have hc := hcur.2.2 htx hp2
            rw [hcp] at hc
            cases hl : lexLess (tx.writes.get ⟨st.txIdx, htx⟩).1 st.parentKey
            · rfl
            · rw [hl] at hc
              cases hc
          have hwd : (writeKeys tx.writes).drop st.txIdx =
              (tx.writes.get ⟨st.txIdx, htx⟩).1 ::
                (writeKeys tx.writes).drop (st.txIdx + 1) := by
            rw [List.drop_eq_getElem_cons (by simpa [writeKeys] using htx)]
            simp [writeKeys]
          rw [hwd, mergeKeys_cons_cons, if_neg (by simp only [hless]; decide), hih, hwd]
        · have hwd : (writeKeys tx.writes).drop st.txIdx = [] :=
            List.drop_eq_nil_of_le (by simp [writeKeys]; omega)
          rw [hwd, mergeKeys_nil_left, hih, hwd, mergeKeys_nil_left]
      · -- transaction leg is current
        have hcpf : st.curIsParent = false := by simpa using hcp
        have htx : st.txIdx < tx.writes.length := by
          by_contra hc
          have hp2 : st.pIdx < parent.length := by
            rcases hor with h | h
            · exact absurd h hc
            · exact h
          have htrue := hcur.2.1 hc hp2
          rw [hcpf] at htrue
          cases htrue
        have hkey : CDBTransactionIterator.getKeyStream tx parent st =
            (tx.writes.get ⟨st.txIdx, htx⟩).1 := by
          unfold CDBTransactionIterator.getKeyStream
          rw [if_neg (by simp [hval]), if_neg (by simp [hcpf])]
          rw [List.getD_eq_getElem tx.writes ([], ⟨0, 0, 0⟩) htx]
          rfl
        have hnext : CDBTransactionIterator.next tx parent st =
            ⟨st.txIdx + 1, st.pIdx, st.parentKey,
             CDBTransactionIterator.decideCur tx parent (st.txIdx + 1) st.pIdx
               st.parentKey st.curIsParent⟩ := by
          unfold CDBTransactionIterator.next
          rw [if_neg (fun hc => hc.1 htx), if_neg (by simp [hcpf])]
        have hpos' : PosOK tx parent (CDBTransactionIterator.next tx parent st) := by
          rw [hnext]
          refine ⟨?_, hple, hpk⟩
          show st.txIdx + 1 ≤ tx.writes.length
          omega
        have hcur' : CurOK tx parent (CDBTransactionIterator.next tx parent st) := by
          rw [hnext]
          exact decideCur_curOK tx parent (st.txIdx + 1) st.pIdx st.parentKey
            st.curIsParent
        have hms : (tx.writes.length - (CDBTransactionIterator.next tx parent st).txIdx) +
            (parent.length - (CDBTransactionIterator.next tx parent st).pIdx) ≤ n := by
          rw [hnext]
          show tx.writes.length - (st.txIdx + 1) + (parent.length - st.pIdx) ≤ n
          omega
        have hih := ih (CDBTransactionIterator.next tx parent st) hpos' hcur' hms
        rw [hnext] at hih
        simp only [] at hih
        rw [← hnext] at hih
        have hwd : (writeKeys tx.writes).drop st.txIdx =
            (tx.writes.get ⟨st.txIdx, htx⟩).1 ::
              (writeKeys tx.writes).drop (st.txIdx + 1) := by
          rw [List.drop_eq_getElem_cons (by simpa [writeKeys] using htx)]
          simp [writeKeys]
        rw [hwd, hkey]
        by_cases hp2 : st.pIdx < parent.length
        · obtain ⟨hshad, hpkey⟩ := hpk hp2
          have hless : lexLess (tx.writes.get ⟨st.txIdx, htx⟩).1 st.parentKey = true := by
            have hc := hcur.2.2 htx hp2
            rw [hcpf] at hc
            cases hl : lexLess (tx.writes.get ⟨st.txIdx, htx⟩).1 st.parentKey
            · rw [hl] at hc
              cases hc
            · rfl
          have hdrop : parent.drop st.pIdx =
              parent[st.pIdx] :: parent.drop (st.pIdx + 1) :=
            List.drop_eq_getElem_cons hp2
          have hcons : unshadowedKeys tx (parent.drop st.pIdx) =
              st.parentKey :: unshadowedKeys tx (parent.drop (st.pIdx + 1)) := by
            rw [hdrop]
            unfold unshadowedKeys
            rw [List.filter_cons_of_pos
              (by simp [show shadowed tx parent[st.pIdx] = false from hshad])]
            rw [hpkey]
            rfl
          rw [hcons, mergeKeys_cons_cons, if_pos hless, hih, hcons]
        · have e2 : parent.drop st.pIdx = [] := List.drop_eq_nil_of_le (by omega)
          rw [e2, unshadowedKeys_nil, mergeKeys_nil_right, hih, e2,
            unshadowedKeys_nil, mergeKeys_nil_right]
    · rw [if_neg hval]
      have h1 : ¬ st.txIdx < tx.writes.length := by
        intro hc
        exact hval (by simp [CDBTransactionIterator.Valid, hc])
      have h2 : ¬ st.pIdx < parent.length := by
        intro hc
        exact hval (by simp [CDBTransactionIterator.Valid, hc])
      have e1 : (writeKeys tx.writes).drop st.txIdx = [] :=
        List.drop_eq_nil_of_le (by simp [writeKeys]; omega)
      have e2 : parent.drop st.pIdx = [] := List.drop_eq_nil_of_le (by omega)
      rw [e1, e2, unshadowedKeys_nil, mergeKeys_nil_left]

theorem mem_mergeKeys (k : Key) : ∀ (xs ys : List Key),
    (k ∈ mergeKeys xs ys ↔ k ∈ xs ∨ k ∈ ys)
  | [], ys => by simp [mergeKeys_nil_left]
  | x :: xs, [] => by simp [mergeKeys_nil_right]
  | x :: xs, y :: ys => by
    rw [mergeKeys_cons_cons]
    by_cases h : lexLess x y = true
    · rw [if_pos h]
      simp only [List.mem_cons, mem_mergeKeys k xs (y :: ys)]
      tauto
    · rw [if_neg h]
      simp only [List.mem_cons, mem_mergeKeys k (x :: xs) ys]
      tauto
termination_by xs ys => xs.length + ys.length

theorem pairwise_mergeKeys : ∀ (xs ys : List Key),
    List.Pairwise (fun a b => lexLess a b = true) xs →
    List.Pairwise (fun a b => lexLess a b = true) ys →
    (∀ x ∈ xs, ∀ y ∈ ys, x ≠ y) →
    List.Pairwise (fun a b => lexLess a b = true) (mergeKeys xs ys)
  | [], ys, _, hys, _ => by rw [mergeKeys_nil_left]; exact hys
  | x :: xs, [], hxs, _, _ => by rw [mergeKeys_nil_right]; exact hxs
  | x :: xs, y :: ys, hxs, hys, hne => by
    rcases List.pairwise_cons.mp hxs with ⟨hx, hxs'⟩
    rcases List.pairwise_cons.mp hys with ⟨hy, hys'⟩
    rw [mergeKeys_cons_cons]
    by_cases h : lexLess x y = true
    · rw [if_pos h]
      refine List.pairwise_cons.mpr ⟨?_, pairwise_mergeKeys xs (y :: ys) hxs' hys
        (fun a ha b hb => hne a (List.mem_cons_of_mem x ha) b hb)⟩
      intro z hz
      rcases (mem_mergeKeys z xs (y :: ys)).mp hz with hz | hz
      · exact hx z hz
      · rcases List.mem_cons.mp hz with rfl | hz
        · exact h
        · exact lexLess_trans h (hy z hz)
    · rw [if_neg h]
      have hxy : lexLess y x = true := by
        rcases lexLess_of_ne
          (hne x (List.mem_cons_self x xs) y (List.mem_cons_self y ys)) with h' | h'
        · exact absurd h' h
        · exact h'
      refine List.pairwise_cons.mpr ⟨?_, pairwise_mergeKeys (x :: xs) ys hxs hys'
        (fun a ha b hb => hne a ha b (List.mem_cons_of_mem y hb))⟩
      intro z hz
      rcases (mem_mergeKeys z (x :: xs) ys).mp hz with hz | hz
      · rcases List.mem_cons.mp hz with rfl | hz
        · exact hxy
        · exact lexLess_trans hxy (hx z hz)
      · exact hy z hz
termination_by xs ys => xs.length + ys.length

theorem shadowed_eq_false_iff {tx : CDBTransaction} {k : Key} :
    shadowed tx k = false ↔
      containsKey tx.deletes k = false ∧ writesFind tx.writes k = none := by
  unfold shadowed
  cases hc : containsKey tx.deletes k
  · cases hf : writesFind tx.writes k
    · simp
    · simp
  · simp

/-- **C2.** A full merge-iterator traversal from `SeekToFirst` (with
enough fuel to exhaust both legs) yields a strictly ascending sequence
of keys with no duplicates, whose key set is exactly the union of the
write-set keys and the parent keys that are in neither the write-set
nor the delete-set. -/
theorem merge_iterator_full_traversal (tx : CDBTransaction) (parent : List Key)
    (hw : List.Pairwise (fun a b => lexLess a b = true) (writeKeys tx.writes))
    (hp : List.Pairwise (fun a b => lexLess a b = true) parent) :
    List.Pairwise (fun a b => lexLess a b = true)
      (CDBTransactionIterator.traverseKeys tx parent
        (tx.writes.length + parent.length)
        (CDBTransactionIterator.seekToFirst tx parent)) ∧
    (CDBTransactionIterator.traverseKeys tx parent
      (tx.writes.length + parent.length)
      (CDBTransactionIterator.seekToFirst tx parent)).Nodup ∧
    (∀ k, k ∈ CDBTransactionIterator.traverseKeys tx parent
        (tx.writes.length + parent.length)
        (CDBTransactionIterator.seekToFirst tx parent) ↔
      (k ∈ writeKeys tx.writes ∨
        (k ∈ parent ∧ k ∉ writeKeys tx.writes ∧ k ∉ tx.deletes))) := by
  obtain ⟨hpos0, hcur0, htx0, hfil⟩ := seekToFirst_spec tx parent
  have hms : (tx.writes.length -
        (CDBTransactionIterator.seekToFirst tx parent).txIdx) +
      (parent.length - (CDBTransactionIterator.seekToFirst tx parent).pIdx) ≤
      tx.writes.length + parent.length := by omega
  have htrav := traverse_eq_merge tx parent (tx.writes.length + parent.length)
    (CDBTransactionIterator.seekToFirst tx parent) hpos0 hcur0 hms
  rw [htx0, List.drop_zero, hfil] at htrav
  have hYpair : List.Pairwise (fun a b => lexLess a b = true)
      (unshadowedKeys tx parent) := hp.filter _
  have hcross : ∀ x ∈ writeKeys tx.writes, ∀ y ∈ unshadowedKeys tx parent, x ≠ y := by
    intro x hx y hy
    unfold unshadowedKeys at hy
    have hf := (List.mem_filter.mp hy).2
    have hsh : shadowed tx y = false := by simpa using hf
    have hyn : writesFind tx.writes y = none := (shadowed_eq_false_iff.mp hsh).2
    intro hxy
    subst hxy
    exact (writesFind_eq_none_iff.mp hyn) hx
  have hpairMerge := pairwise_mergeKeys (writeKeys tx.writes)
    (unshadowedKeys tx parent) hw hYpair hcross
  refine ⟨?_, ?_, ?_⟩
  · rw [htrav]
    exact hpairMerge
  · rw [htrav]
    exact hpairMerge.imp (fun hab => ne_of_lexLess hab)
  · intro k
    rw [htrav, mem_mergeKeys]
    have hY : k ∈ unshadowedKeys tx parent ↔
        (k ∈ parent ∧ k ∉ writeKeys tx.writes ∧ k ∉ tx.deletes) := by
      unfold unshadowedKeys
      rw [List.mem_filter]
      constructor
      · rintro ⟨hkp, hf⟩
        have hsh : shadowed tx k = false := by simpa using hf
        obtain ⟨hc, hn⟩ := shadowed_eq_false_iff.mp hsh
        refine ⟨hkp, writesFind_eq_none_iff.mp hn, fun hm => ?_⟩
        rw [containsKey_iff_mem.mpr hm] at hc
        cases hc
      · rintro ⟨hkp, hnw, hnd⟩
        have hc : containsKey tx.deletes k = false := by
          cases hck : containsKey tx.deletes k
          · rfl
          · exact absurd (containsKey_iff_mem.mp hck) hnd
        have hsh : shadowed tx k = false :=
          shadowed_eq_false_iff.mpr ⟨hc, writesFind_eq_none_iff.mpr hnw⟩
        exact ⟨hkp, by simp [hsh]⟩
    rw [hY]

theorem merge_iterator_full_traversal_witness :
    [0] ∈ CDBTransactionIterator.traverseKeys ⟨[([1], ⟨0, 7, 1⟩)], [[2]], 0⟩
      [[0], [1], [2]]
      ((⟨[([1], ⟨0, 7, 1⟩)], [[2]], 0⟩ : CDBTransaction).writes.length +
        ([[0], [1], [2]] : List Key).length)
      (CDBTransactionIterator.seekToFirst ⟨[([1], ⟨0, 7, 1⟩)], [[2]], 0⟩
        [[0], [1], [2]]) :=
  ((merge_iterator_full_traversal ⟨[([1], ⟨0, 7, 1⟩)], [[2]], 0⟩ [[0], [1], [2]]
      (by decide) (by decide)).2.2 [0]).mpr
    (Or.inr ⟨by decide, by decide, by decide⟩)
